import Mathlib

/-!
Verification development for the dual-space memory map (IRMemoryMap.cpp).

The C++ source is shallowly embedded below.  64-bit machine integers
(lldb::addr_t, size_t) are modelled as Nat with an explicit `% U64`
reduction at every addition that the source performs in 64-bit
arithmetic, and the C bitwise operators are Nat.land / Nat.xor.  The
ordered map std::map<addr_t, Allocation> is modelled as an association
list sorted by key; every map state produced by the operations below is
built by mapInsert, which inserts in key order exactly as std::map does.
The external Process / Target collaborators (weak pointers in the
source) are modelled as optional oracles; the remote calls the code
performs are recorded as an event list so that statements about what is
passed to the remote side can be made.
-/

namespace IRMemoryMap

/-- 2^64, the modulus of lldb::addr_t / size_t arithmetic. -/
def U64 : Nat := 2 ^ 64

/-- LLDB_INVALID_ADDRESS = UINT64_MAX. -/
def LLDB_INVALID_ADDRESS : Nat := 2 ^ 64 - 1

/-- The three allocation policies (eAllocationPolicyHostOnly,
eAllocationPolicyProcessOnly, eAllocationPolicyMirror). -/
inductive AllocationPolicy where
  | hostOnly
  | processOnly
  | mirror
deriving DecidableEq

/-- One allocation record (struct Allocation in the source).  The
DataBufferHeap m_data is modelled by its byte count data_size
(m_data.GetByteSize()) plus a byte function data. -/
structure Allocation where
  process_alloc : Nat
  process_start : Nat
  size : Nat
  permissions : Nat
  alignment : Nat
  policy : AllocationPolicy
  leak : Bool
  data_size : Nat
  data : Nat → Nat

/-- The Allocation constructor: HostOnly and Mirror set the buffer to
size zeroed bytes, ProcessOnly leaves it empty; m_leak starts false. -/
def Allocation.make (process_alloc process_start size permissions alignment : Nat)
    (policy : AllocationPolicy) : Allocation :=
  { process_alloc := process_alloc
    process_start := process_start
    size := size
    permissions := permissions
    alignment := alignment
    policy := policy
    leak := false
    data_size := match policy with
      | .processOnly => 0
      | _ => size
    data := fun _ => 0 }

/-- AllocationMap = std::map<lldb::addr_t, Allocation>, as an
association list kept sorted by key. -/
abbrev AllocationMap : Type := List (Nat × Allocation)

/-- m_allocations.find(addr): exact key lookup. -/
def mapFind (m : AllocationMap) (addr : Nat) : Option Allocation :=
  (List.find? (fun p => p.1 == addr) m).map (fun p => p.2)

/-- m_allocations[key] = value: ordered insert-or-assign. -/
def mapInsert : AllocationMap → Nat → Allocation → AllocationMap
  | [], a, v => [(a, v)]
  | p :: t, a, v =>
    if p.1 < a then p :: mapInsert t a v
    else if p.1 = a then (a, v) :: t
    else (a, v) :: p :: t

/-- In-place mutation of the record found at an exact key (writing
through a map iterator). -/
def mapUpdate : AllocationMap → Nat → (Allocation → Allocation) → AllocationMap
  | [], _, _ => []
  | p :: t, a, f =>
    if p.1 = a then (p.1, f p.2) :: t
    else p :: mapUpdate t a f

/-- m_allocations.erase(iter) after an exact-key find. -/
def eraseKey (m : AllocationMap) (addr : Nat) : AllocationMap :=
  List.eraseP (fun p => p.1 == addr) m

/-- IRMemoryMap::AllocationsIntersect, with the two sums performed in
uint64 arithmetic: (addr2 < addr1+size1) && (addr1 < addr2+size2). -/
def AllocationsIntersect (addr1 size1 addr2 size2 : Nat) : Bool :=
  decide (addr2 < (addr1 + size1) % U64) && decide (addr1 < (addr2 + size2) % U64)

/-- IRMemoryMap::FindAllocation: lower_bound, step back once if past
addr, then the containment test.  In the sorted association list the
lower_bound iterator is the head of dropWhile (key < addr) and its
predecessor is the last of takeWhile (key < addr). -/
def FindAllocation (m : AllocationMap) (addr size : Nat) : Option (Nat × Allocation) :=
  if addr = LLDB_INVALID_ADDRESS then none
  else
    let pre := m.takeWhile (fun p => p.1 < addr)
    let post := m.dropWhile (fun p => p.1 < addr)
    let iter : Option (Nat × Allocation) :=
      match post with
      | [] => pre.getLast?
      | p :: _ => if addr < p.1 then pre.getLast? else some p
    match iter with
    | none => none
    | some p =>
      if p.1 ≤ addr ∧ (addr + size) % U64 ≤ (p.1 + p.2.size) % U64 then some p
      else none

/-- IRMemoryMap::IntersectsAllocation: checks the lower_bound candidate
and its predecessor, using m_process_start as in the source. -/
def IntersectsAllocation (m : AllocationMap) (addr size : Nat) : Bool :=
  if addr = LLDB_INVALID_ADDRESS then false
  else
    let pre := m.takeWhile (fun p => p.1 < addr)
    let post := m.dropWhile (fun p => p.1 < addr)
    (match post with
      | p :: _ => AllocationsIntersect addr size p.2.process_start p.2.size
      | [] => false)
    || (match pre.getLast? with
      | some p => AllocationsIntersect addr size p.2.process_start p.2.size
      | none => false)

/-- The remote process collaborator (lldb_private::Process behind a weak
pointer), as an oracle: CanJIT / IsAlive flags and response functions
for AllocateMemory / CallocateMemory (allocRes size permissions zero),
WriteMemory (writeOk) and ReadMemory (readRes). -/
structure Process where
  isAlive : Bool
  canJIT : Bool
  allocRes : Nat → Nat → Bool → Option Nat
  writeOk : Nat → Nat → Bool
  readRes : Nat → Nat → Option (List Nat)

/-- The Target collaborator: only its static-memory read is used. -/
structure TargetIface where
  readRes : Nat → Nat → Option (List Nat)

/-- The weakly referenced collaborators of one IRMemoryMap. -/
structure Ctx where
  process? : Option Process
  target? : Option TargetIface

/-- process_sp && process_sp->CanJIT() && process_sp->IsAlive(). -/
def liveJIT (ctx : Ctx) : Bool :=
  match ctx.process? with
  | some p => p.canJIT && p.isAlive
  | none => false

/-- Calls the code makes on the remote process, recorded in order. -/
inductive REvent where
  | alloc (size permissions : Nat) (zero : Bool)
  | dealloc (addr : Nat)
  | write (addr size : Nat)
  | read (addr size : Nat)
deriving DecidableEq

/-- The error kinds set by the source (one per SetErrorString site). -/
inductive MErr where
  | addressSpaceFull
  | remoteAllocFailed
  | remoteUnsupported
  | remoteRequired
  | notFound
  | outOfRange
  | emptyShadow
  | shortShadow
  | remoteWriteFailed
  | remoteReadFailed
  | targetReadFailed
deriving DecidableEq

/-- llvm::alignTo(x, 4096) on uint64: (x + 4095) / 4096 * 4096 with the
addition wrapping mod 2^64. -/
def alignTo4096 (x : Nat) : Nat :=
  (x + 4095) % U64 / 4096 * 4096

/-- The host pseudo-heap branch of FindSpace: 0 on an empty index, else
llvm::alignTo(rbegin->first + rbegin->second.m_size, 4096). -/
def hostFindSpaceAddr (m : AllocationMap) : Nat :=
  match m.getLast? with
  | none => 0
  | some (a, al) => alignTo4096 ((a + al.size) % U64)

/-- IRMemoryMap::FindSpace.  With a live JIT-capable process it calls
the remote allocator with hardcoded permissions
ePermissionsReadable | ePermissionsWritable = 3; otherwise it uses the
host pseudo-heap.  Returns the address and the remote calls made. -/
def FindSpace (ctx : Ctx) (m : AllocationMap) (size : Nat) (zero_memory : Bool) :
    Nat × List REvent :=
  if size = 0 then (LLDB_INVALID_ADDRESS, [])
  else
    match ctx.process? with
    | some p =>
      if p.canJIT && p.isAlive then
        match p.allocRes size 3 zero_memory with
        | some r => (r, [.alloc size 3 zero_memory])
        | none => (LLDB_INVALID_ADDRESS, [.alloc size 3 zero_memory])
      else (hostFindSpaceAddr m, [])
    | none => (hostFindSpaceAddr m, [])

/-- size_t alignment_mask = alignment - 1, where the uint8_t alignment
is promoted to int and the difference converted to size_t (so
alignment = 0 gives 2^64 - 1). -/
def alignmentMask (alignment : Nat) : Nat :=
  (alignment + (U64 - 1)) % U64

/-- ~mask on a 64-bit size_t. -/
def notMask (mask : Nat) : Nat :=
  (U64 - 1) ^^^ mask

/-- The size rounding of Malloc:
allocation_size = size == 0 ? alignment
                : (size & mask) ? ((size + alignment) & ~mask) : size. -/
def allocationSize (size alignment : Nat) : Nat :=
  let mask := alignmentMask alignment
  if size = 0 then alignment
  else if size &&& mask ≠ 0 then ((size + alignment) % U64) &&& notMask mask
  else size

/-- The policy switch of Malloc.  On success: the raw allocation
address, the effective (possibly downgraded) policy, and the remote
calls made; on failure: the error and the remote calls made. -/
def mallocDispatch (ctx : Ctx) (m : AllocationMap) (asize permissions : Nat)
    (policy : AllocationPolicy) (zero_memory : Bool) :
    Except (MErr × List REvent) (Nat × AllocationPolicy × List REvent) :=
  match policy with
  | .hostOnly =>
    let fs := FindSpace ctx m asize false
    if fs.1 = LLDB_INVALID_ADDRESS then .error (.addressSpaceFull, fs.2)
    else .ok (fs.1, .hostOnly, fs.2)
  | .mirror =>
    match ctx.process? with
    | some p =>
      if p.canJIT && p.isAlive then
        match p.allocRes asize permissions zero_memory with
        | some r => .ok (r, .mirror, [.alloc asize permissions zero_memory])
        | none => .error (.remoteAllocFailed, [.alloc asize permissions zero_memory])
      else
        let fs := FindSpace ctx m asize false
        if fs.1 = LLDB_INVALID_ADDRESS then .error (.addressSpaceFull, fs.2)
        else .ok (fs.1, .hostOnly, fs.2)
    | none =>
      let fs := FindSpace ctx m asize false
      if fs.1 = LLDB_INVALID_ADDRESS then .error (.addressSpaceFull, fs.2)
      else .ok (fs.1, .hostOnly, fs.2)
  | .processOnly =>
    match ctx.process? with
    | some p =>
      if p.canJIT && p.isAlive then
        match p.allocRes asize permissions zero_memory with
        | some r => .ok (r, .processOnly, [.alloc asize permissions zero_memory])
        | none => .error (.remoteAllocFailed, [.alloc asize permissions zero_memory])
      else .error (.remoteUnsupported, [])
    | none => .error (.remoteRequired, [])

/-- The alignment fix-up of Malloc:
aligned_address = (allocation_address + mask) & ~mask with
mask = alignment - 1, all in 64-bit arithmetic. -/
def alignedAddr (raw alignment : Nat) : Nat :=
  ((raw + alignmentMask alignment) % U64) &&& notMask (alignmentMask alignment)

/-- IRMemoryMap::Malloc: size rounding, policy dispatch, alignment
fix-up, and insertion of the record under the aligned address.  Returns
the new map, the result address or error, and the remote calls made. -/
def Malloc (ctx : Ctx) (m : AllocationMap) (size alignment permissions : Nat)
    (policy : AllocationPolicy) (zero_memory : Bool) :
    AllocationMap × Except MErr Nat × List REvent :=
  match mallocDispatch ctx m (allocationSize size alignment) permissions policy zero_memory with
  | .error (e, evs) => (m, .error e, evs)
  | .ok (raw, pol, evs) =>
    (mapInsert m (alignedAddr raw alignment)
        (Allocation.make raw (alignedAddr raw alignment)
          (allocationSize size alignment) permissions alignment pol),
      .ok (alignedAddr raw alignment), evs)

/-- The remote deallocations performed by Free on one record: HostOnly
deallocates m_process_alloc only with a live JIT-capable process;
Mirror and ProcessOnly deallocate whenever the process exists. -/
def freeDeallocEvents (ctx : Ctx) (al : Allocation) : List REvent :=
  match al.policy with
  | .hostOnly =>
    match ctx.process? with
    | some p => if p.canJIT && p.isAlive then [.dealloc al.process_alloc] else []
    | none => []
  | _ =>
    match ctx.process? with
    | some _ => [.dealloc al.process_alloc]
    | none => []

/-- IRMemoryMap::Free: exact-key lookup, remote deallocation per policy,
then erase. -/
def Free (ctx : Ctx) (m : AllocationMap) (addr : Nat) :
    AllocationMap × Except MErr Unit × List REvent :=
  match mapFind m addr with
  | none => (m, .error .notFound, [])
  | some al => (eraseKey m addr, .ok (), freeDeallocEvents ctx al)

/-- IRMemoryMap::Leak: exact-key lookup, set m_leak. -/
def Leak (m : AllocationMap) (addr : Nat) : AllocationMap × Except MErr Unit :=
  match mapFind m addr with
  | none => (m, .error .notFound)
  | some _ => (mapUpdate m addr (fun al => { al with leak := true }), .ok ())

/-- memcpy(data + offset, bytes, size) on a shadow buffer. -/
def memWrite (d : Nat → Nat) (offset : Nat) (bytes : List Nat) (size : Nat) : Nat → Nat :=
  fun i => if offset ≤ i ∧ i < offset + size then bytes.getD (i - offset) 0 else d i

/-- memcpy(out, data + offset, size) from a shadow buffer. -/
def memRead (d : Nat → Nat) (offset size : Nat) : List Nat :=
  (List.range size).map (fun i => d (offset + i))

/-- IRMemoryMap::WriteMemory.  Returns the new map, the result, and the
remote calls made. -/
def WriteMemory (ctx : Ctx) (m : AllocationMap) (addr : Nat) (bytes : List Nat)
    (size : Nat) : AllocationMap × Except MErr Unit × List REvent :=
  match FindAllocation m addr size with
  | none =>
    match ctx.process? with
    | some p =>
      (m, if p.writeOk addr size then .ok () else .error .remoteWriteFailed,
        [.write addr size])
    | none => (m, .error .outOfRange, [])
  | some (a, al) =>
    let offset := addr - a
    match al.policy with
    | .hostOnly =>
      if al.data_size = 0 then (m, .error .emptyShadow, [])
      else
        (mapUpdate m a (fun al2 => { al2 with data := memWrite al2.data offset bytes size }),
          .ok (), [])
    | .mirror =>
      if al.data_size = 0 then (m, .error .emptyShadow, [])
      else
        let m2 := mapUpdate m a
          (fun al2 => { al2 with data := memWrite al2.data offset bytes size })
        match ctx.process? with
        | some p =>
          (m2, if p.writeOk addr size then .ok () else .error .remoteWriteFailed,
            [.write addr size])
        | none => (m2, .ok (), [])
    | .processOnly =>
      match ctx.process? with
      | some p =>
        (m, if p.writeOk addr size then .ok () else .error .remoteWriteFailed,
          [.write addr size])
      | none => (m, .ok (), [])

/-- IRMemoryMap::ReadMemory.  buf is the caller's buffer, returned
unchanged on the silent ProcessOnly no-remote path.  Returns the bytes
delivered (or the error) and the remote calls made; the map itself is
never modified by a read. -/
def ReadMemory (ctx : Ctx) (m : AllocationMap) (buf : List Nat) (addr size : Nat) :
    Except MErr (List Nat) × List REvent :=
  match FindAllocation m addr size with
  | none =>
    match ctx.process? with
    | some p =>
      match p.readRes addr size with
      | some bs => (.ok bs, [.read addr size])
      | none => (.error .remoteReadFailed, [.read addr size])
    | none =>
      match ctx.target? with
      | some t =>
        match t.readRes addr size with
        | some bs => (.ok bs, [])
        | none => (.error .targetReadFailed, [])
      | none => (.error .outOfRange, [])
  | some (a, al) =>
    let offset := addr - a
    if al.size < offset then (.error .outOfRange, [])
    else
      match al.policy with
      | .hostOnly =>
        if al.data_size = 0 then (.error .emptyShadow, [])
        else if al.data_size < offset + size then (.error .shortShadow, [])
        else (.ok (memRead al.data offset size), [])
      | .mirror =>
        match ctx.process? with
        | some p =>
          match p.readRes addr size with
          | some bs => (.ok bs, [.read addr size])
          | none => (.error .remoteReadFailed, [.read addr size])
        | none =>
          if al.data_size = 0 then (.error .emptyShadow, [])
          else (.ok (memRead al.data offset size), [])
      | .processOnly =>
        match ctx.process? with
        | some p =>
          match p.readRes addr size with
          | some bs => (.ok bs, [.read addr size])
          | none => (.error .remoteReadFailed, [.read addr size])
        | none => (.ok buf, [])

/-- The destructor loop body: repeatedly take the first entry; if
m_leak, erase it, else Free it (which erases it).  The events of each
freed entry are exactly freeDeallocEvents. -/
def destructorLoopGo (ctx : Ctx) : AllocationMap → AllocationMap × List REvent
  | [] => ([], [])
  | (_, al) :: t =>
    let rest := destructorLoopGo ctx t
    if al.leak then rest
    else (rest.1, freeDeallocEvents ctx al ++ rest.2)

/-- IRMemoryMap::~IRMemoryMap: the loop runs only when the weak process
pointer still locks; otherwise nothing is iterated. -/
def destructor (ctx : Ctx) (m : AllocationMap) : AllocationMap × List REvent :=
  match ctx.process? with
  | none => (m, [])
  | some _ => destructorLoopGo ctx m

/-- One client operation on the map. -/
inductive Op where
  | malloc (size alignment permissions : Nat) (policy : AllocationPolicy) (zero : Bool)
  | free (addr : Nat)
  | leak (addr : Nat)
  | write (addr : Nat) (bytes : List Nat) (size : Nat)
  | read (addr size : Nat)

/-- The allocation-index effect of one operation.  ReadMemory never
modifies the index, so a read is the identity on the state. -/
def stepOp (ctx : Ctx) (m : AllocationMap) : Op → AllocationMap
  | .malloc s a perms pol z => (Malloc ctx m s a perms pol z).1
  | .free addr => (Free ctx m addr).1
  | .leak addr => (Leak m addr).1
  | .write addr bytes size => (WriteMemory ctx m addr bytes size).1
  | .read _ _ => m

/-- Run a finite sequence of operations. -/
def run (ctx : Ctx) (m : AllocationMap) (ops : List Op) : AllocationMap :=
  ops.foldl (stepOp ctx) m

/-- Strictly increasing keys (std::map order). -/
def SortedKeys (m : AllocationMap) : Prop :=
  List.Pairwise (fun p q : Nat × Allocation => p.1 < q.1) m

/-- Well-formedness of a map state: entries are ordered with
non-overlapping half-open intervals (each end at or before the next
start) and every size is positive. -/
def WFmap (m : AllocationMap) : Prop :=
  List.Pairwise (fun p q : Nat × Allocation => p.1 + p.2.size ≤ q.1) m ∧
  ∀ p ∈ m, 0 < p.2.size

/-- Alignments representable in the uint8_t parameter: 2^0 .. 2^7. -/
def alignmentValidB (a : Nat) : Bool :=
  a == 1 || a == 2 || a == 4 || a == 8 || a == 16 || a == 32 || a == 64 || a == 128

/-- No 64-bit wraparound is left pending at the top of the pseudo-heap. -/
def lastHeadroomB (m : AllocationMap) : Bool :=
  match m.getLast? with
  | none => true
  | some (a, al) => decide (a + al.size + 4095 < U64)

/-- Guard for one host-path Malloc: either it fails (rounded size 0), or
the alignment is a valid power of two and no computation on the way to
the new allocation end wraps around 2^64. -/
def mallocGuardB (m : AllocationMap) (size alignment : Nat) : Bool :=
  let asize := allocationSize size alignment
  asize == 0 ||
    (alignmentValidB alignment && lastHeadroomB m &&
      decide (hostFindSpaceAddr m + (alignment - 1) + asize ≤ U64))

/-- Guard for one operation (only mallocs need one). -/
def opGuardB (m : AllocationMap) : Op → Bool
  | .malloc s a _ pol _ => pol == .processOnly || mallocGuardB m s a
  | _ => true

/-- All operations of a run satisfy their guard at the state where they
execute. -/
def GuardedRunB (ctx : Ctx) : AllocationMap → List Op → Bool
  | _, [] => true
  | m, op :: ops => opGuardB m op && GuardedRunB ctx (stepOp ctx m op) ops

/-- The rounded size in the words of the claim: alignment when size is
zero, size itself when size is a nonzero multiple of alignment, and
(size + alignment) & ~(alignment - 1) otherwise (64-bit arithmetic). -/
def claimAllocSize (size alignment : Nat) : Nat :=
  if size = 0 then alignment
  else if size % alignment = 0 then size
  else ((size + alignment) % U64) &&& notMask (alignment - 1)

/-- A map whose collaborators have both been released. -/
def ctxNone : Ctx := { process? := none, target? := none }

/-- A live JIT-capable remote that allocates at 0x70000000. -/
def pJIT : Process :=
  { isAlive := true
    canJIT := true
    allocRes := fun _ _ _ => some 0x70000000
    writeOk := fun _ _ => true
    readRes := fun _ n => some (List.replicate n 0) }

/-- Context with the live JIT-capable remote. -/
def ctxJIT : Ctx := { process? := some pJIT, target? := none }

/-- A remote that is alive but cannot JIT. -/
def pNoJIT : Process :=
  { isAlive := true
    canJIT := false
    allocRes := fun _ _ _ => none
    writeOk := fun _ _ => false
    readRes := fun _ _ => none }

/-- Context with the alive, non-JIT remote. -/
def ctxNoJIT : Ctx := { process? := some pNoJIT, target? := none }

/-- The highest 4096-aligned 64-bit address, 2^64 - 4096. -/
def topAddr : Nat := 0xFFFFFFFFFFFFF000

/-- Three host-only mallocs whose pseudo-heap addresses wrap around
2^64: sizes 2^64 - 4096, 8192 and 16, all with alignment 1. -/
def opsWrap : List Op :=
  [.malloc topAddr 1 3 .hostOnly false,
   .malloc 8192 1 3 .hostOnly false,
   .malloc 16 1 3 .hostOnly false]

/-- Host-only mallocs of sizes 2^64 - 4096 and 8192 (alignment 1)
followed by freeing the first allocation, leaving the freed gap
[0, 2^64 - 4096). -/
def opsGap : List Op :=
  [.malloc topAddr 1 3 .hostOnly false,
   .malloc 8192 1 3 .hostOnly false,
   .free 0]

/-- Three host-only mallocs of 100 bytes at alignment 16. -/
def ops3 : List Op :=
  [.malloc 100 16 3 .hostOnly false,
   .malloc 100 16 3 .hostOnly false,
   .malloc 100 16 3 .hostOnly false]

/-- A single well-formed host-only allocation of 4096 bytes whose
half-open interval ends exactly at 2^64. -/
def mTop : AllocationMap := [(topAddr, Allocation.make topAddr topAddr 4096 3 1 .hostOnly)]

/-- A single non-leaked host-only allocation at address 0. -/
def mC9 : AllocationMap := [(0, Allocation.make 0 0 16 3 1 .hostOnly)]

/-- The permissions argument of a remote allocation call, if the event
is one. -/
def REvent.allocPerms? : REvent → Option Nat
  | .alloc _ p _ => some p
  | _ => none

/-- A single well-formed host-only allocation of 112 bytes at 0. -/
def mC4 : AllocationMap := [(0, Allocation.make 0 0 112 3 16 .hostOnly)]

/-- A single process-only allocation at 0x7000 (no shadow). -/
def mC8 : AllocationMap := [(0x7000, Allocation.make 0x7000 0x7000 32 7 8 .processOnly)]

/-- Events of a dispatch result (either arm carries the remote calls
made up to that point). -/
def dispatchEvents :
    Except (MErr × List REvent) (Nat × AllocationPolicy × List REvent) → List REvent
  | .error (_, evs) => evs
  | .ok (_, _, evs) => evs

/-- The remote deallocations the destructor loop performs, entry by
entry: nothing for a leaked entry, freeDeallocEvents otherwise. -/
def destructorEventsSpec (ctx : Ctx) : AllocationMap → List REvent
  | [] => []
  | q :: t =>
    (if q.2.leak then [] else freeDeallocEvents ctx q.2) ++ destructorEventsSpec ctx t

theorem two_pow_le_U64 {k : Nat} (hk : k ≤ 64) : 2 ^ k ≤ U64 :=
  Nat.pow_le_pow_right (by omega) hk

theorem alignmentMask_pow {k : Nat} (hk : k ≤ 64) : alignmentMask (2 ^ k) = 2 ^ k - 1 := by
  have h1 : (1 : Nat) ≤ 2 ^ k := Nat.one_le_two_pow
  have h2 : 2 ^ k ≤ U64 := two_pow_le_U64 hk
  have h3 : 2 ^ k + (U64 - 1) = (2 ^ k - 1) + U64 := by
    have : (1 : Nat) ≤ U64 := Nat.one_le_two_pow
    omega
  unfold alignmentMask
  rw [h3, Nat.add_mod_right, Nat.mod_eq_of_lt (by omega)]

theorem land_highMask {k y : Nat} (hk : k ≤ 64) (hy : y < U64) :
    y &&& notMask (2 ^ k - 1) = y / 2 ^ k * 2 ^ k := by
  have hdiv : y / 2 ^ k * 2 ^ k = (y >>> k) <<< k := by
    rw [Nat.shiftLeft_eq, Nat.shiftRight_eq_div_pow]
  rw [hdiv]
  apply Nat.eq_of_testBit_eq
  intro i
  unfold notMask U64 at *
  rw [Nat.testBit_and, Nat.testBit_shiftLeft, Nat.testBit_shiftRight,
    Nat.testBit_xor, Nat.testBit_two_pow_sub_one, Nat.testBit_two_pow_sub_one]
  by_cases h1 : i < k
  · have h64 : i < 64 := lt_of_lt_of_le h1 hk
    simp [h1, h64, Nat.not_le.mpr h1]
  · have hik : k + (i - k) = i := by omega
    by_cases h2 : i < 64
    · simp [h1, h2, hik, Nat.le_of_not_lt h1]
    · have hbit : y.testBit i = false :=
        Nat.testBit_lt_two_pow
          (lt_of_lt_of_le hy (Nat.pow_le_pow_right (by omega) (by omega)))
      simp [h1, h2, hbit, hik, Nat.le_of_not_lt h1]

theorem div_mul_bounds (n c : Nat) (hc : 0 < c) :
    n + 1 ≤ n / c * c + c ∧ n / c * c ≤ n := by
  have h1 := Nat.div_add_mod n c
  have h2 := Nat.mod_lt n hc
  have h3 : n / c * c = c * (n / c) := Nat.mul_comm _ _
  omega

theorem aligned_bounds {k r : Nat} (h : r + (2 ^ k - 1) < U64) :
    r ≤ ((r + (2 ^ k - 1)) % U64) &&& notMask (2 ^ k - 1) ∧
      ((r + (2 ^ k - 1)) % U64) &&& notMask (2 ^ k - 1) ≤ r + (2 ^ k - 1) := by
  by_cases hk : k ≤ 64
  case neg =>
    exfalso
    have : U64 < 2 ^ k := by
      have : 2 ^ 64 < 2 ^ k := Nat.pow_lt_pow_right (by omega) (by omega)
      unfold U64
      omega
    omega
  have hpos : 0 < 2 ^ k := Nat.two_pow_pos k
  rw [Nat.mod_eq_of_lt h, land_highMask hk h]
  have := div_mul_bounds (r + (2 ^ k - 1)) (2 ^ k) hpos
  constructor
  · omega
  · omega

theorem alignTo4096_spec {x : Nat} (h : x + 4095 < U64) :
    x ≤ alignTo4096 x ∧ alignTo4096 x ≤ x + 4095 := by
  unfold alignTo4096
  rw [Nat.mod_eq_of_lt h]
  have := div_mul_bounds (x + 4095) 4096 (by omega)
  omega

theorem allocationSize_eq_claim {size alignment k : Nat} (hk : k ≤ 64)
    (ha : alignment = 2 ^ k) :
    allocationSize size alignment = claimAllocSize size alignment := by
  subst ha
  unfold allocationSize claimAllocSize
  rw [alignmentMask_pow hk]
  by_cases h0 : size = 0
  · simp [h0]
  · have hand : size &&& (2 ^ k - 1) = size % 2 ^ k :=
      Nat.and_pow_two_sub_one_eq_mod size k
    by_cases hm : size % 2 ^ k = 0
    · simp [h0, hand, hm]
    · simp [h0, hand, hm]

theorem alignmentValidB_pow {a : Nat} (h : alignmentValidB a = true) :
    ∃ k, k ≤ 64 ∧ a = 2 ^ k := by
  unfold alignmentValidB at h
  simp only [Bool.or_eq_true, beq_iff_eq] at h
  rcases h with (((((((h | h) | h) | h) | h) | h) | h) | h) <;> subst h
  · exact ⟨0, by omega, by norm_num⟩
  · exact ⟨1, by omega, by norm_num⟩
  · exact ⟨2, by omega, by norm_num⟩
  · exact ⟨3, by omega, by norm_num⟩
  · exact ⟨4, by omega, by norm_num⟩
  · exact ⟨5, by omega, by norm_num⟩
  · exact ⟨6, by omega, by norm_num⟩
  · exact ⟨7, by omega, by norm_num⟩

theorem pairwise_or {α : Type} {R : α → α → Prop} {l : List α} {p q : α}
    (h : List.Pairwise R l) (hp : p ∈ l) (hq : q ∈ l) (hne : p ≠ q) : R p q ∨ R q p := by
  induction l with
  | nil => cases hp
  | cons x t ih =>
    rcases List.mem_cons.mp hp with rfl | hp2
    · rcases List.mem_cons.mp hq with rfl | hq2
      · exact absurd rfl hne
      · exact Or.inl ((List.pairwise_cons.mp h).1 q hq2)
    · rcases List.mem_cons.mp hq with rfl | hq2
      · exact Or.inr ((List.pairwise_cons.mp h).1 p hp2)
      · exact ih (List.pairwise_cons.mp h).2 hp2 hq2

theorem mem_rel_getLast {α : Type} {R : α → α → Prop} {l : List α} {x q : α}
    (hp : List.Pairwise R l) (hl : l.getLast? = some x) (hq : q ∈ l) :
    q = x ∨ R q x := by
  obtain ⟨l2, rfl⟩ := List.getLast?_eq_some_iff.mp hl
  rw [List.pairwise_append] at hp
  rcases List.mem_append.mp hq with h | h
  · exact Or.inr (hp.2.2 q h x (List.mem_singleton.mpr rfl))
  · exact Or.inl (List.mem_singleton.mp h)

theorem mapInsert_append {m : AllocationMap} {a : Nat} {v : Allocation}
    (h : ∀ p ∈ m, p.1 < a) : mapInsert m a v = m ++ [(a, v)] := by
  induction m with
  | nil => rfl
  | cons p t ih =>
    have hp := h p (List.mem_cons_self p t)
    simp only [mapInsert, if_pos hp, List.cons_append]
    rw [ih (fun q hq => h q (List.mem_cons_of_mem p hq))]

theorem mapFind_mapInsert_self {m : AllocationMap} {a : Nat} {v : Allocation} :
    mapFind (mapInsert m a v) a = some v := by
  induction m with
  | nil => simp [mapInsert, mapFind]
  | cons p t ih =>
    unfold mapInsert
    by_cases h1 : p.1 < a
    · simp only [if_pos h1]
      unfold mapFind
      rw [List.find?_cons_of_neg _ (by simp only [beq_iff_eq]; omega)]
      exact ih
    · by_cases h2 : p.1 = a
      · simp only [if_neg h1, if_pos h2]
        unfold mapFind
        rw [List.find?_cons_of_pos _ (by simp)]
        rfl
      · simp only [if_neg h1, if_neg h2]
        unfold mapFind
        rw [List.find?_cons_of_pos _ (by simp)]
        rfl

theorem WF_sorted {m : AllocationMap} (hwf : WFmap m) : SortedKeys m := by
  refine List.Pairwise.imp_of_mem ?_ hwf.1
  intro p q hp hq hR
  have := hwf.2 p hp
  omega

theorem WF_mapInsert {m : AllocationMap} {a : Nat} {v : Allocation}
    (hwf : WFmap m) (hend : ∀ p ∈ m, p.1 + p.2.size ≤ a) (hsz : 0 < v.size) :
    WFmap (mapInsert m a v) := by
  have hlt : ∀ p ∈ m, p.1 < a := by
    intro p hp
    have h1 := hwf.2 p hp
    have h2 := hend p hp
    omega
  rw [mapInsert_append hlt]
  constructor
  · rw [List.pairwise_append]
    refine ⟨hwf.1, List.pairwise_singleton _ _, ?_⟩
    intro p hp q hq
    rw [List.mem_singleton] at hq
    subst hq
    exact hend p hp
  · intro p hp
    rcases List.mem_append.mp hp with h | h
    · exact hwf.2 p h
    · rw [List.mem_singleton] at h
      subst h
      exact hsz

theorem WF_eraseKey {m : AllocationMap} {addr : Nat} (hwf : WFmap m) :
    WFmap (eraseKey m addr) := by
  have hsub : List.Sublist (eraseKey m addr) m := List.eraseP_sublist m
  exact ⟨hwf.1.sublist hsub, fun p hp => hwf.2 p (hsub.subset hp)⟩

theorem mapUpdate_mem {m : AllocationMap} {a : Nat} {f : Allocation → Allocation}
    (hf : ∀ al, (f al).size = al.size) {q : Nat × Allocation}
    (hq : q ∈ mapUpdate m a f) :
    ∃ r ∈ m, q.1 = r.1 ∧ q.2.size = r.2.size := by
  induction m with
  | nil => cases hq
  | cons p t ih =>
    unfold mapUpdate at hq
    by_cases h1 : p.1 = a
    · rw [if_pos h1] at hq
      rcases List.mem_cons.mp hq with rfl | hq2
      · exact ⟨p, List.mem_cons_self p t, rfl, hf p.2⟩
      · exact ⟨q, List.mem_cons_of_mem p hq2, rfl, rfl⟩
    · rw [if_neg h1] at hq
      rcases List.mem_cons.mp hq with rfl | hq2
      · exact ⟨q, List.mem_cons_self q t, rfl, rfl⟩
      · obtain ⟨r, hr, hc⟩ := ih hq2
        exact ⟨r, List.mem_cons_of_mem p hr, hc⟩

theorem pairwise_mapUpdate {m : AllocationMap} {a : Nat} {f : Allocation → Allocation}
    (hf : ∀ al, (f al).size = al.size)
    (hpw : List.Pairwise (fun p q : Nat × Allocation => p.1 + p.2.size ≤ q.1) m) :
    List.Pairwise (fun p q : Nat × Allocation => p.1 + p.2.size ≤ q.1) (mapUpdate m a f) := by
  induction hpw with
  | nil => exact List.Pairwise.nil
  | @cons p t hhead htail ih =>
    unfold mapUpdate
    by_cases h1 : p.1 = a
    · rw [if_pos h1]
      refine List.pairwise_cons.mpr ⟨?_, htail⟩
      intro q hq
      show p.1 + (f p.2).size ≤ q.1
      rw [hf]
      exact hhead q hq
    · rw [if_neg h1]
      refine List.pairwise_cons.mpr ⟨?_, ih⟩
      intro q hq
      obtain ⟨r, hr, he1, _⟩ := mapUpdate_mem hf hq
      have := hhead r hr
      omega

theorem WF_mapUpdate {m : AllocationMap} {a : Nat} {f : Allocation → Allocation}
    (hwf : WFmap m) (hf : ∀ al, (f al).size = al.size) :
    WFmap (mapUpdate m a f) := by
  refine ⟨pairwise_mapUpdate hf hwf.1, ?_⟩
  intro q hq
  obtain ⟨r, hr, _, he2⟩ := mapUpdate_mem hf hq
  have := hwf.2 r hr
  omega

theorem Malloc_ok {ctx : Ctx} {m : AllocationMap} {size alignment perms : Nat}
    {policy : AllocationPolicy} {zero : Bool} {addr : Nat}
    (h : (Malloc ctx m size alignment perms policy zero).2.1 = .ok addr) :
    ∃ raw pol evs,
      mallocDispatch ctx m (allocationSize size alignment) perms policy zero
        = .ok (raw, pol, evs) ∧
      addr = alignedAddr raw alignment ∧
      (Malloc ctx m size alignment perms policy zero).1 =
        mapInsert m addr
          (Allocation.make raw addr (allocationSize size alignment) perms alignment pol) ∧
      (Malloc ctx m size alignment perms policy zero).2.2 = evs := by
  unfold Malloc at h ⊢
  cases hd : mallocDispatch ctx m (allocationSize size alignment) perms policy zero with
  | error e =>
    obtain ⟨e1, e2⟩ := e
    rw [hd] at h
    simp at h
  | ok r =>
    obtain ⟨raw, pol, evs⟩ := r
    rw [hd] at h
    simp only at h
    have haddr : addr = alignedAddr raw alignment := by
      cases h
      rfl
    subst haddr
    exact ⟨raw, pol, evs, rfl, rfl, rfl, rfl⟩

theorem Malloc_err {ctx : Ctx} {m : AllocationMap} {size alignment perms : Nat}
    {policy : AllocationPolicy} {zero : Bool} {e : MErr} {evs : List REvent}
    (h : mallocDispatch ctx m (allocationSize size alignment) perms policy zero
      = .error (e, evs)) :
    (Malloc ctx m size alignment perms policy zero).1 = m ∧
    (Malloc ctx m size alignment perms policy zero).2.1 = .error e ∧
    (Malloc ctx m size alignment perms policy zero).2.2 = evs := by
  unfold Malloc
  rw [h]
  exact ⟨rfl, rfl, rfl⟩

theorem FindSpace_none {ctx : Ctx} {m : AllocationMap} {size : Nat} {zero : Bool}
    (hctx : ctx.process? = none) :
    FindSpace ctx m size zero =
      if size = 0 then (LLDB_INVALID_ADDRESS, []) else (hostFindSpaceAddr m, []) := by
  unfold FindSpace
  rw [hctx]

theorem dispatch_none_eq {ctx : Ctx} {m : AllocationMap} {asize perms : Nat}
    {policy : AllocationPolicy} {zero : Bool} (hctx : ctx.process? = none) :
    mallocDispatch ctx m asize perms policy zero =
      match policy with
      | .processOnly => .error (.remoteRequired, [])
      | _ =>
        if asize = 0 then .error (.addressSpaceFull, [])
        else if hostFindSpaceAddr m = LLDB_INVALID_ADDRESS then
          .error (.addressSpaceFull, [])
        else .ok (hostFindSpaceAddr m, .hostOnly, []) := by
  cases policy with
  | hostOnly =>
    simp only [mallocDispatch, FindSpace_none hctx]
    by_cases h0 : asize = 0
    · simp [h0]
    · simp only [if_neg h0]
  | mirror =>
    simp only [mallocDispatch, hctx, FindSpace_none hctx]
    by_cases h0 : asize = 0
    · simp [h0]
    · simp only [if_neg h0]
  | processOnly =>
    simp only [mallocDispatch, hctx]

theorem dispatch_host_ok {ctx : Ctx} {m : AllocationMap} {asize perms : Nat}
    {policy : AllocationPolicy} {zero : Bool} {raw : Nat} {pol : AllocationPolicy}
    {evs : List REvent} (hctx : ctx.process? = none)
    (h : mallocDispatch ctx m asize perms policy zero = .ok (raw, pol, evs)) :
    raw = hostFindSpaceAddr m ∧ asize ≠ 0 ∧ pol = .hostOnly ∧ evs = [] := by
  rw [dispatch_none_eq hctx] at h
  cases policy with
  | processOnly => simp at h
  | hostOnly =>
    dsimp only at h
    by_cases h0 : asize = 0
    · rw [if_pos h0] at h
      simp at h
    · rw [if_neg h0] at h
      by_cases hi : hostFindSpaceAddr m = LLDB_INVALID_ADDRESS
      · rw [if_pos hi] at h
        simp at h
      · rw [if_neg hi] at h
        simp only [Except.ok.injEq, Prod.mk.injEq] at h
        obtain ⟨h1, h2, h3⟩ := h
        exact ⟨h1.symm, h0, h2.symm, h3.symm⟩
  | mirror =>
    dsimp only at h
    by_cases h0 : asize = 0
    · rw [if_pos h0] at h
      simp at h
    · rw [if_neg h0] at h
      by_cases hi : hostFindSpaceAddr m = LLDB_INVALID_ADDRESS
      · rw [if_pos hi] at h
        simp at h
      · rw [if_neg hi] at h
        simp only [Except.ok.injEq, Prod.mk.injEq] at h
        obtain ⟨h1, h2, h3⟩ := h
        exact ⟨h1.symm, h0, h2.symm, h3.symm⟩

theorem hostFindSpaceAddr_last {m : AllocationMap} {a : Nat} {al : Allocation}
    (hl : m.getLast? = some (a, al)) :
    hostFindSpaceAddr m = alignTo4096 ((a + al.size) % U64) := by
  unfold hostFindSpaceAddr
  rw [hl]

theorem lastHeadroomB_last {m : AllocationMap} {a : Nat} {al : Allocation}
    (hl : m.getLast? = some (a, al)) :
    lastHeadroomB m = decide (a + al.size + 4095 < U64) := by
  unfold lastHeadroomB
  rw [hl]

theorem hostRaw_ge_ends {m : AllocationMap} (hwf : WFmap m)
    (hh : lastHeadroomB m = true) :
    ∀ p ∈ m, p.1 + p.2.size ≤ hostFindSpaceAddr m := by
  intro p hp
  cases hl : m.getLast? with
  | none =>
    rw [List.getLast?_eq_none_iff] at hl
    subst hl
    cases hp
  | some x =>
    obtain ⟨a, al⟩ := x
    rw [lastHeadroomB_last hl] at hh
    have hhead : a + al.size + 4095 < U64 := of_decide_eq_true hh
    have hmod : (a + al.size) % U64 = a + al.size := Nat.mod_eq_of_lt (by omega)
    rw [hostFindSpaceAddr_last hl, hmod]
    have hat := (alignTo4096_spec (x := a + al.size) (by omega)).1
    rcases mem_rel_getLast hwf.1 hl hp with heq | hR
    · have hp1 : p.1 = a := by rw [heq]
      have hp2 : p.2.size = al.size := by rw [heq]
      omega
    · have hrel : p.1 + p.2.size ≤ a := hR
      omega

theorem WF_Malloc_none {ctx : Ctx} {m : AllocationMap} {size alignment perms : Nat}
    {policy : AllocationPolicy} {zero : Bool}
    (hctx : ctx.process? = none) (hwf : WFmap m)
    (hg : mallocGuardB m size alignment = true ∨ policy = .processOnly) :
    WFmap (Malloc ctx m size alignment perms policy zero).1 := by
  cases hd : mallocDispatch ctx m (allocationSize size alignment) perms policy zero with
  | error e =>
    obtain ⟨e1, e2⟩ := e
    rw [(Malloc_err hd).1]
    exact hwf
  | ok r =>
    obtain ⟨raw, pol, evs⟩ := r
    obtain ⟨hraw, hasz, hpol, hevs⟩ := dispatch_host_ok hctx hd
    have hguard : mallocGuardB m size alignment = true := by
      rcases hg with h | h
      · exact h
      · subst h
        rw [dispatch_none_eq hctx] at hd
        simp at hd
    unfold mallocGuardB at hguard
    rw [Bool.or_eq_true] at hguard
    rcases hguard with h0 | hrest
    · exact absurd (by simpa using h0) hasz
    · rw [Bool.and_eq_true, Bool.and_eq_true] at hrest
      obtain ⟨⟨hvalid, hheadroom⟩, hbound⟩ := hrest
      rw [decide_eq_true_iff] at hbound
      obtain ⟨k, hk, hak⟩ := alignmentValidB_pow hvalid
      have hsz : 0 < allocationSize size alignment := Nat.pos_of_ne_zero hasz
      have halm : alignment - 1 = 2 ^ k - 1 := by rw [hak]
      have hrawmask : raw + (2 ^ k - 1) < U64 := by
        rw [hraw]
        omega
      have hbnds := aligned_bounds (k := k) (r := raw) hrawmask
      have haeq : alignedAddr raw alignment
          = ((raw + (2 ^ k - 1)) % U64) &&& notMask (2 ^ k - 1) := by
        unfold alignedAddr
        rw [hak, alignmentMask_pow hk]
      unfold Malloc
      rw [hd]
      apply WF_mapInsert hwf
      · intro p hp
        have h1 := hostRaw_ge_ends hwf hheadroom p hp
        have h2 : raw ≤ alignedAddr raw alignment := by
          rw [haeq]
          exact hbnds.1
        rw [hraw] at h2
        omega
      · exact hsz

theorem WF_stepOp {ctx : Ctx} {m : AllocationMap} {op : Op}
    (hctx : ctx.process? = none) (hwf : WFmap m) (hg : opGuardB m op = true) :
    WFmap (stepOp ctx m op) := by
  cases op with
  | malloc s a perms pol z =>
    simp only [stepOp]
    unfold opGuardB at hg
    rw [Bool.or_eq_true] at hg
    apply WF_Malloc_none hctx hwf
    rcases hg with h | h
    · exact Or.inr (by simpa using h)
    · exact Or.inl h
  | free addr =>
    simp only [stepOp]
    unfold Free
    cases hf : mapFind m addr with
    | none => exact hwf
    | some al => exact WF_eraseKey hwf
  | leak addr =>
    simp only [stepOp]
    unfold Leak
    cases hf : mapFind m addr with
    | none => exact hwf
    | some al => exact WF_mapUpdate hwf (fun al2 => rfl)
  | write addr bytes size =>
    simp only [stepOp]
    unfold WriteMemory
    cases hf : FindAllocation m addr size with
    | none =>
      rw [hctx]
      exact hwf
    | some p =>
      obtain ⟨a, al⟩ := p
      dsimp only
      cases hpol : al.policy with
      | hostOnly =>
        dsimp only
        by_cases hds : al.data_size = 0
        · rw [if_pos hds]
          exact hwf
        · rw [if_neg hds]
          exact WF_mapUpdate hwf (fun al2 => rfl)
      | mirror =>
        dsimp only
        by_cases hds : al.data_size = 0
        · rw [if_pos hds]
          exact hwf
        · rw [if_neg hds, hctx]
          exact WF_mapUpdate hwf (fun al2 => rfl)
      | processOnly =>
        dsimp only
        rw [hctx]
        exact hwf
  | read addr size => exact hwf

theorem WF_run {ctx : Ctx} (hctx : ctx.process? = none) :
    ∀ (ops : List Op) (m : AllocationMap), WFmap m → GuardedRunB ctx m ops = true →
      WFmap (run ctx m ops) := by
  intro ops
  induction ops with
  | nil =>
    intro m h _
    exact h
  | cons op t ih =>
    intro m hwf hg
    unfold GuardedRunB at hg
    rw [Bool.and_eq_true] at hg
    exact ih _ (WF_stepOp hctx hwf hg.1) hg.2

theorem intersect_false_of_chain {a1 s1 a2 s2 : Nat} (h : a1 + s1 ≤ a2) :
    AllocationsIntersect a1 s1 a2 s2 = false ∧ AllocationsIntersect a2 s2 a1 s1 = false := by
  have hm : (a1 + s1) % U64 ≤ a2 := le_trans (Nat.mod_le _ _) h
  unfold AllocationsIntersect
  constructor
  · simp [Nat.not_lt.mpr hm]
  · simp [Nat.not_lt.mpr hm]

theorem mem_takeWhile_of_sorted {m : AllocationMap} (hs : SortedKeys m)
    {p : Nat × Allocation} (hp : p ∈ m) {addr : Nat} (h : p.1 < addr) :
    p ∈ m.takeWhile (fun q => q.1 < addr) := by
  induction m with
  | nil => cases hp
  | cons x t ih =>
    obtain ⟨hhead, htail⟩ := List.pairwise_cons.mp hs
    rw [List.takeWhile_cons]
    rcases List.mem_cons.mp hp with rfl | hp2
    · rw [if_pos (decide_eq_true h)]
      exact List.mem_cons_self _ _
    · have hx : x.1 < addr := lt_trans (hhead p hp2) h
      rw [if_pos (decide_eq_true hx)]
      exact List.mem_cons_of_mem x (ih htail hp2)

theorem getLast_of_max {l : List (Nat × Allocation)}
    (hs : List.Pairwise (fun p q : Nat × Allocation => p.1 < q.1) l)
    {x : Nat × Allocation} (hx : x ∈ l) (hmax : ∀ q ∈ l, q.1 ≤ x.1) :
    l.getLast? = some x := by
  induction l with
  | nil => cases hx
  | cons y t ih =>
    obtain ⟨hhead, htail⟩ := List.pairwise_cons.mp hs
    cases t with
    | nil =>
      rcases List.mem_cons.mp hx with rfl | hx2
      · rfl
      · cases hx2
    | cons z t2 =>
      rw [List.getLast?_cons_cons]
      rcases List.mem_cons.mp hx with rfl | hx2
      · exfalso
        have h1 := hhead z (List.mem_cons_self z t2)
        have h2 := hmax z (List.mem_cons_of_mem _ (List.mem_cons_self z t2))
        omega
      · exact ih htail hx2 (fun q hq => hmax q (List.mem_cons_of_mem _ hq))

theorem takeWhile_pred {α : Type} (P : α → Bool) :
    ∀ (l : List α) (x : α), x ∈ l.takeWhile P → P x = true := by
  intro l
  induction l with
  | nil =>
    intro x h
    simp [List.takeWhile] at h
  | cons a t ih =>
    intro x h
    rw [List.takeWhile_cons] at h
    by_cases hp : P a = true
    · rw [if_pos hp] at h
      rcases List.mem_cons.mp h with rfl | h2
      · exact hp
      · exact ih x h2
    · rw [if_neg hp] at h
      cases h

theorem dropWhile_head_not {α : Type} (P : α → Bool) :
    ∀ (l : List α) (x : α) (t : List α), l.dropWhile P = x :: t → P x = false := by
  intro l
  induction l with
  | nil =>
    intro x t h
    simp [List.dropWhile] at h
  | cons a l2 ih =>
    intro x t h
    rw [List.dropWhile_cons] at h
    by_cases hp : P a
    · rw [if_pos hp] at h
      exact ih x t h
    · rw [if_neg hp] at h
      cases h
      exact Bool.of_not_eq_true hp

theorem ne_of_key_ne {p q : Nat × Allocation} (h : p.1 ≠ q.1) : p ≠ q := by
  intro heq
  rw [heq] at h
  exact h rfl

theorem FindAllocation_mem {m : AllocationMap} {a : Nat} {al : Allocation}
    {addr size : Nat} (hwf : WFmap m) (hmem : (a, al) ∈ m) (h1 : a ≤ addr)
    (h2 : addr + size ≤ a + al.size) (hsz : 0 < size) (hub : a + al.size < U64) :
    FindAllocation m addr size = some (a, al) := by
  have hs := WF_sorted hwf
  have haddr_lt : addr < a + al.size := by omega
  have hinv : addr ≠ LLDB_INVALID_ADDRESS := by
    unfold LLDB_INVALID_ADDRESS
    unfold U64 at hub
    omega
  have hcont : a ≤ addr ∧ (addr + size) % U64 ≤ (a + al.size) % U64 := by
    constructor
    · exact h1
    · rw [Nat.mod_eq_of_lt (by omega), Nat.mod_eq_of_lt (by omega)]
      exact h2
  unfold FindAllocation
  rw [if_neg hinv]
  dsimp only
  have hsplit : m.takeWhile (fun q => q.1 < addr) ++ m.dropWhile (fun q => q.1 < addr) = m :=
    List.takeWhile_append_dropWhile _ _
  rcases Nat.lt_or_ge a addr with hlt | hge
  · -- a < addr: the record is found by stepping back from lower_bound
    have hpre_mem : (a, al) ∈ m.takeWhile (fun q => q.1 < addr) :=
      mem_takeWhile_of_sorted hs hmem hlt
    have hpre_max : ∀ q ∈ m.takeWhile (fun q => q.1 < addr), q.1 ≤ a := by
      intro q hq
      have hq_m : q ∈ m := (List.takeWhile_sublist _).subset hq
      have hq_lt0 := takeWhile_pred _ _ _ hq
      have hq_lt : q.1 < addr := of_decide_eq_true hq_lt0
      by_cases hqa : q.1 = a
      · omega
      · rcases pairwise_or hwf.1 hq_m hmem (ne_of_key_ne hqa) with hR | hR
        · have : q.1 + q.2.size ≤ a := hR
          have := hwf.2 q hq_m
          omega
        · exfalso
          have : a + al.size ≤ q.1 := hR
          omega
    have hpre_sorted : List.Pairwise (fun p q : Nat × Allocation => p.1 < q.1)
        (m.takeWhile (fun q => q.1 < addr)) :=
      hs.sublist (List.takeWhile_sublist _)
    have hlast : (m.takeWhile (fun q => q.1 < addr)).getLast? = some (a, al) :=
      getLast_of_max hpre_sorted hpre_mem hpre_max
    cases hpost : m.dropWhile (fun q => q.1 < addr) with
    | nil =>
      dsimp only
      rw [hlast]
      dsimp only
      rw [if_pos hcont]
    | cons h t =>
      have hh_not : ¬ h.1 < addr := by
        have := dropWhile_head_not _ m h t hpost
        simpa using this
      by_cases hlt2 : addr < h.1
      · dsimp only
        rw [if_pos hlt2, hlast]
        dsimp only
        rw [if_pos hcont]
      · exfalso
        have hh_eq : h.1 = addr := by omega
        have hh_m : h ∈ m := (List.dropWhile_sublist _).subset (hpost ▸ List.mem_cons_self h t)
        have hne : h ≠ (a, al) := ne_of_key_ne (by omega)
        rcases pairwise_or hwf.1 hh_m hmem hne with hR | hR
        · have hr : h.1 + h.2.size ≤ a := hR
          have := hwf.2 h hh_m
          omega
        · have hr : a + al.size ≤ h.1 := hR
          omega
  · -- a = addr: the record is exactly the lower_bound entry
    have heq : a = addr := by omega
    subst heq
    have hpost_mem : (a, al) ∈ m.dropWhile (fun q => q.1 < a) := by
      rcases (List.mem_append.mp (hsplit ▸ hmem)) with hin | hin
      · exfalso
        have hin0 := takeWhile_pred _ _ _ hin
        have : a < a := of_decide_eq_true hin0
        omega
      · exact hin
    cases hpost : m.dropWhile (fun q => q.1 < a) with
    | nil =>
      rw [hpost] at hpost_mem
      cases hpost_mem
    | cons h t =>
      have hh_not : ¬ h.1 < a := by
        have := dropWhile_head_not _ m h t hpost
        simpa using this
      have hpost_sorted : List.Pairwise (fun p q : Nat × Allocation => p.1 < q.1) (h :: t) :=
        hpost ▸ hs.sublist (List.dropWhile_sublist _)
      rw [hpost] at hpost_mem
      have hhead_eq : h = (a, al) := by
        rcases List.mem_cons.mp hpost_mem with heq | hin
        · exact heq.symm
        · exfalso
          have := (List.pairwise_cons.mp hpost_sorted).1 (a, al) hin
          omega
      subst hhead_eq
      dsimp only
      rw [if_neg (by simp : ¬ a < (a, al).1)]
      dsimp only
      rw [if_pos hcont]

theorem mem_mapUpdate_self {m : AllocationMap} {a : Nat} {al : Allocation}
    {f : Allocation → Allocation} (hs : SortedKeys m) (hmem : (a, al) ∈ m) :
    (a, f al) ∈ mapUpdate m a f := by
  induction m with
  | nil => cases hmem
  | cons p t ih =>
    obtain ⟨hhead, htail⟩ := List.pairwise_cons.mp hs
    unfold mapUpdate
    by_cases h1 : p.1 = a
    · rw [if_pos h1]
      rcases List.mem_cons.mp hmem with heq | hin
      · rw [← heq]
        exact List.mem_cons_self _ _
      · exfalso
        have := hhead (a, al) hin
        simp at this
        omega
    · rw [if_neg h1]
      rcases List.mem_cons.mp hmem with heq | hin
      · exfalso
        rw [← heq] at h1
        exact h1 rfl
      · exact List.mem_cons_of_mem p (ih htail hin)

theorem memRead_memWrite {d : Nat → Nat} {offset n : Nat} {bytes : List Nat}
    (hlen : bytes.length = n) :
    memRead (memWrite d offset bytes n) offset n = bytes := by
  unfold memRead memWrite
  apply List.ext_getElem
  · simp [hlen]
  · intro i h1 h2
    simp only [List.getElem_map, List.getElem_range]
    have hi : i < n := by simpa using h1
    rw [if_pos (by omega : offset ≤ offset + i ∧ offset + i < offset + n)]
    have hoi : offset + i - offset = i := by omega
    rw [hoi]
    exact (List.getD_eq_getElem bytes 0 h2).symm ▸ rfl

theorem WriteMemory_host {ctx : Ctx} {m : AllocationMap} {a : Nat} {al : Allocation}
    {addr n : Nat} {bytes : List Nat}
    (hfa : FindAllocation m addr n = some (a, al)) (hpol : al.policy = .hostOnly)
    (hds : ¬ al.data_size = 0) :
    WriteMemory ctx m addr bytes n =
      (mapUpdate m a (fun al2 => { al2 with data := memWrite al2.data (addr - a) bytes n }),
        .ok (), []) := by
  unfold WriteMemory
  rw [hfa]
  dsimp only
  rw [hpol]
  dsimp only
  rw [if_neg hds]

theorem ReadMemory_host {ctx : Ctx} {m : AllocationMap} {a : Nat} {al : Allocation}
    {buf : List Nat} {addr n : Nat}
    (hfa : FindAllocation m addr n = some (a, al)) (hpol : al.policy = .hostOnly)
    (hoff : ¬ al.size < addr - a) (hds : ¬ al.data_size = 0)
    (hshort : ¬ al.data_size < (addr - a) + n) :
    ReadMemory ctx m buf addr n = (.ok (memRead al.data (addr - a) n), []) := by
  unfold ReadMemory
  rw [hfa]
  dsimp only
  rw [if_neg hoff, hpol]
  dsimp only
  rw [if_neg hds, if_neg hshort]

theorem mapFind_mem {m : AllocationMap} {addr : Nat} {al : Allocation}
    (h : mapFind m addr = some al) : (addr, al) ∈ m := by
  unfold mapFind at h
  cases hf : List.find? (fun p => p.1 == addr) m with
  | none =>
    rw [hf] at h
    cases h
  | some p =>
    rw [hf] at h
    obtain ⟨p1, p2⟩ := p
    have hp : p1 = addr := by
      have := List.find?_some hf
      simpa using this
    have hmem := List.mem_of_find?_eq_some hf
    have hval : p2 = al := by simpa using h
    rw [hp, hval] at hmem
    exact hmem

theorem mapFind_eraseKey_self {m : AllocationMap} (hs : SortedKeys m) (addr : Nat) :
    mapFind (eraseKey m addr) addr = none := by
  induction m with
  | nil => rfl
  | cons p t ih =>
    obtain ⟨hhead, htail⟩ := List.pairwise_cons.mp hs
    unfold eraseKey
    rw [List.eraseP_cons]
    by_cases h1 : p.1 = addr
    · have hb : (p.1 == addr) = true := beq_iff_eq.mpr h1
      rw [hb, cond_true]
      have hnone : List.find? (fun q => q.1 == addr) t = none := by
        rw [List.find?_eq_none]
        intro x hx
        have := hhead x hx
        simp only [beq_iff_eq]
        omega
      unfold mapFind
      rw [hnone]
      rfl
    · have hb : (p.1 == addr) = false := by simp [h1]
      rw [hb, cond_false]
      unfold mapFind
      rw [List.find?_cons_of_neg _ (by simpa using h1)]
      exact ih htail

theorem destructorLoopGo_spec (ctx : Ctx) (m : AllocationMap) :
    destructorLoopGo ctx m = ([], destructorEventsSpec ctx m) := by
  induction m with
  | nil => rfl
  | cons q t ih =>
    obtain ⟨a, al⟩ := q
    unfold destructorLoopGo destructorEventsSpec
    rw [ih]
    by_cases hl : al.leak = true
    · rw [if_pos hl, if_pos hl]
      simp
    · rw [if_neg hl, if_neg hl]

theorem Malloc_events (ctx : Ctx) (m : AllocationMap) (size alignment perms : Nat)
    (policy : AllocationPolicy) (zero : Bool) :
    (Malloc ctx m size alignment perms policy zero).2.2 =
      dispatchEvents (mallocDispatch ctx m (allocationSize size alignment) perms policy zero) := by
  unfold Malloc
  cases hd : mallocDispatch ctx m (allocationSize size alignment) perms policy zero with
  | error e =>
    obtain ⟨e1, e2⟩ := e
    rfl
  | ok r =>
    obtain ⟨raw, pol, evs⟩ := r
    rfl

theorem FindSpace_events {ctx : Ctx} {m : AllocationMap} {size : Nat} {zero : Bool}
    {s p : Nat} {z : Bool} (h : REvent.alloc s p z ∈ (FindSpace ctx m size zero).2) :
    s = size ∧ p = 3 ∧ z = zero := by
  unfold FindSpace at h
  by_cases h0 : size = 0
  · rw [if_pos h0] at h
    simp at h
  · rw [if_neg h0] at h
    cases hp : ctx.process? with
    | none =>
      rw [hp] at h
      simp at h
    | some pr =>
      rw [hp] at h
      dsimp only at h
      by_cases hj : (pr.canJIT && pr.isAlive) = true
      · rw [if_pos hj] at h
        cases ha : pr.allocRes size 3 zero with
        | some r =>
          rw [ha] at h
          simp at h
          exact ⟨h.1, h.2.1, h.2.2⟩
        | none =>
          rw [ha] at h
          simp at h
          exact ⟨h.1, h.2.1, h.2.2⟩
      · rw [if_neg hj] at h
        simp at h

theorem dispatch_hostOnly_events (ctx : Ctx) (m : AllocationMap) (asize perms : Nat)
    (zero : Bool) :
    dispatchEvents (mallocDispatch ctx m asize perms .hostOnly zero) =
      (FindSpace ctx m asize false).2 := by
  unfold mallocDispatch
  dsimp only
  by_cases hi : (FindSpace ctx m asize false).1 = LLDB_INVALID_ADDRESS
  · rw [if_pos hi]
    rfl
  · rw [if_neg hi]
    rfl

theorem FindSpace_noJIT {ctx : Ctx} {m : AllocationMap} {size : Nat} {zero : Bool}
    (h : liveJIT ctx = false) :
    FindSpace ctx m size zero =
      if size = 0 then (LLDB_INVALID_ADDRESS, []) else (hostFindSpaceAddr m, []) := by
  unfold FindSpace
  cases hp : ctx.process? with
  | none => rfl
  | some pr =>
    have hj : (pr.canJIT && pr.isAlive) = false := by
      unfold liveJIT at h
      rw [hp] at h
      exact h
    by_cases h0 : size = 0
    · rw [if_pos h0, if_pos h0]
    · rw [if_neg h0, if_neg h0]
      dsimp only
      rw [if_neg (by simp [hj])]

theorem dispatch_mirror_noJIT {ctx : Ctx} {m : AllocationMap} {asize perms : Nat}
    {zero : Bool} (h : liveJIT ctx = false) :
    mallocDispatch ctx m asize perms .mirror zero =
      mallocDispatch ctx m asize perms .hostOnly zero := by
  unfold mallocDispatch
  cases hp : ctx.process? with
  | none => rfl
  | some pr =>
    have hj : (pr.canJIT && pr.isAlive) = false := by
      unfold liveJIT at h
      rw [hp] at h
      exact h
    dsimp only
    rw [if_neg (by simp [hj])]

theorem dispatch_alloc_verbatim {ctx : Ctx} {m : AllocationMap} {asize perms : Nat}
    {policy : AllocationPolicy} {zero : Bool} {s p : Nat} {z : Bool}
    (hpol : policy = .mirror ∨ policy = .processOnly)
    (h : REvent.alloc s p z ∈
      dispatchEvents (mallocDispatch ctx m asize perms policy zero)) :
    s = asize ∧ p = perms ∧ z = zero := by
  rcases hpol with rfl | rfl
  · by_cases hj : liveJIT ctx = true
    · unfold liveJIT at hj
      cases hp : ctx.process? with
      | none =>
        rw [hp] at hj
        cases hj
      | some pr =>
        rw [hp] at hj
        unfold mallocDispatch at h
        rw [hp] at h
        dsimp only at h
        rw [if_pos hj] at h
        cases ha : pr.allocRes asize perms zero with
        | some r =>
          rw [ha] at h
          simp [dispatchEvents] at h
          exact ⟨h.1, h.2.1, h.2.2⟩
        | none =>
          rw [ha] at h
          simp [dispatchEvents] at h
          exact ⟨h.1, h.2.1, h.2.2⟩
    · have hj2 : liveJIT ctx = false := by
        cases hl : liveJIT ctx
        · rfl
        · exact absurd hl hj
      rw [dispatch_mirror_noJIT hj2, dispatch_hostOnly_events, FindSpace_noJIT hj2] at h
      by_cases h0 : asize = 0
      · rw [if_pos h0] at h
        simp at h
      · rw [if_neg h0] at h
        simp at h
  · unfold mallocDispatch at h
    cases hp : ctx.process? with
    | none =>
      rw [hp] at h
      simp [dispatchEvents] at h
    | some pr =>
      rw [hp] at h
      dsimp only at h
      by_cases hj : (pr.canJIT && pr.isAlive) = true
      · rw [if_pos hj] at h
        cases ha : pr.allocRes asize perms zero with
        | some r =>
          rw [ha] at h
          simp [dispatchEvents] at h
          exact ⟨h.1, h.2.1, h.2.2⟩
        | none =>
          rw [ha] at h
          simp [dispatchEvents] at h
          exact ⟨h.1, h.2.1, h.2.2⟩
      · rw [if_neg hj] at h
        simp [dispatchEvents] at h

theorem dispatch_hostOnly_pol {ctx : Ctx} {m : AllocationMap} {asize perms : Nat}
    {zero : Bool} {raw : Nat} {pol : AllocationPolicy} {evs : List REvent}
    (h : mallocDispatch ctx m asize perms .hostOnly zero = .ok (raw, pol, evs)) :
    pol = .hostOnly := by
  unfold mallocDispatch at h
  by_cases hi : (FindSpace ctx m asize false).1 = LLDB_INVALID_ADDRESS
  · rw [if_pos hi] at h
    cases h
  · rw [if_neg hi] at h
    have := (by simpa using h : (FindSpace ctx m asize false).1 = raw ∧
      AllocationPolicy.hostOnly = pol ∧ (FindSpace ctx m asize false).2 = evs)
    exact this.2.1.symm

/-- C1: for every Malloc call with a power-of-two alignment (2^k, the
uint8_t parameter bounds k by 7 but any k up to 64 is covered) that
succeeds, the recorded allocation size equals alignment when size = 0,
size when size is a nonzero multiple of alignment, and
(size + alignment) & ~(alignment-1) otherwise; in particular a malloc of
size 100 with alignment 16 records an allocation of size 112. -/
theorem c1_malloc_records_rounded_size {ctx : Ctx} {m : AllocationMap}
    {size alignment perms : Nat} {policy : AllocationPolicy} {zero : Bool}
    {addr k : Nat} (hk : k ≤ 64) (ha : alignment = 2 ^ k)
    (hok : (Malloc ctx m size alignment perms policy zero).2.1 = .ok addr) :
    (mapFind (Malloc ctx m size alignment perms policy zero).1 addr).map Allocation.size
      = some (claimAllocSize size alignment) ∧ claimAllocSize 100 16 = 112 := by
  constructor
  · obtain ⟨raw, pol, evs, hd, haddr, hmap, hevs⟩ := Malloc_ok hok
    rw [hmap, mapFind_mapInsert_self]
    show some (allocationSize size alignment) = some (claimAllocSize size alignment)
    rw [allocationSize_eq_claim hk ha]
  · decide

theorem c1_malloc_records_rounded_size_witness :
    ((4 ≤ 64 ∧ (16 : Nat) = 2 ^ 4) ∧
      (Malloc ctxNone [] 100 16 3 .hostOnly false).2.1 = .ok 0) ∧
    ((mapFind (Malloc ctxNone [] 100 16 3 .hostOnly false).1 0).map Allocation.size
      = some (claimAllocSize 100 16) ∧ claimAllocSize 100 16 = 112) :=
  ⟨⟨⟨by omega, by norm_num⟩, rfl⟩,
    c1_malloc_records_rounded_size (k := 4) (by omega) (by norm_num) rfl⟩

/-- C2 counterexample: with no remote process, three host-only mallocs
of sizes 2^64-4096, 8192 and 16 (alignment 1) leave the map with live
allocations (0, 2^64-4096) and (0x1000, 16) whose intervals intersect:
the pseudo-heap computation wraps around 2^64, so the claim fails as
stated. -/
theorem c2_disjoint_counterexample :
    ((run ctxNone [] opsWrap).map (fun p => (p.1, p.2.size))
      = [(0, topAddr), (4096, 16), (topAddr, 8192)]) ∧
    AllocationsIntersect 0 topAddr 4096 16 = true := by
  exact ⟨by decide, by decide⟩

/-- C2 (amended): with no remote process, if every malloc of the
sequence either fails or satisfies the no-wraparound guard (a valid
power-of-two alignment and all pseudo-heap address computations staying
below 2^64), then after any finite sequence of malloc, free, leak, read
and write operations the live allocations are pairwise non-overlapping
under AllocationsIntersect. -/
theorem c2_disjoint_of_guarded_run {ctx : Ctx} {ops : List Op}
    (hctx : ctx.process? = none) (hg : GuardedRunB ctx [] ops = true) :
    ∀ p ∈ run ctx [] ops, ∀ q ∈ run ctx [] ops, p ≠ q →
      AllocationsIntersect p.1 p.2.size q.1 q.2.size = false := by
  have hwf : WFmap (run ctx [] ops) :=
    WF_run hctx ops [] ⟨List.Pairwise.nil, by intro p hp; cases hp⟩ hg
  intro p hp q hq hne
  rcases pairwise_or hwf.1 hp hq hne with hR | hR
  · exact (intersect_false_of_chain hR).1
  · exact (intersect_false_of_chain hR).2

theorem c2_disjoint_of_guarded_run_witness :
    (ctxNone.process? = none ∧ GuardedRunB ctxNone [] ops3 = true) ∧
    (∀ p ∈ run ctxNone [] ops3, ∀ q ∈ run ctxNone [] ops3, p ≠ q →
      AllocationsIntersect p.1 p.2.size q.1 q.2.size = false) :=
  ⟨⟨rfl, by decide⟩, c2_disjoint_of_guarded_run rfl (by decide)⟩

/-- C3: a Mirror Malloc executed while the remote process is absent, not
alive, or cannot JIT behaves exactly like a HostOnly Malloc (it does not
fail for that reason: it allocates from the host pseudo-heap), and on
success the stored allocation record carries the downgraded policy
HostOnly, which is what Free, ReadMemory and WriteMemory later dispatch
on. -/
theorem c3_mirror_downgrades_to_hostonly {ctx : Ctx} {m : AllocationMap}
    {size alignment perms : Nat} {zero : Bool} (h : liveJIT ctx = false) :
    Malloc ctx m size alignment perms .mirror zero
      = Malloc ctx m size alignment perms .hostOnly zero ∧
    ∀ addr, (Malloc ctx m size alignment perms .mirror zero).2.1 = .ok addr →
      (mapFind (Malloc ctx m size alignment perms .mirror zero).1 addr).map
        Allocation.policy = some .hostOnly := by
  have hdm : mallocDispatch ctx m (allocationSize size alignment) perms .mirror zero
      = mallocDispatch ctx m (allocationSize size alignment) perms .hostOnly zero :=
    dispatch_mirror_noJIT h
  constructor
  · unfold Malloc
    rw [hdm]
  · intro addr hok
    obtain ⟨raw, pol, evs, hd, haddr, hmap, hevs⟩ := Malloc_ok hok
    have hpol : pol = .hostOnly := dispatch_hostOnly_pol (hdm ▸ hd)
    rw [hmap, mapFind_mapInsert_self]
    show some pol = some AllocationPolicy.hostOnly
    rw [hpol]

theorem c3_mirror_downgrades_to_hostonly_witness :
    liveJIT ctxNone = false ∧
    (Malloc ctxNone [] 8 8 3 .mirror false = Malloc ctxNone [] 8 8 3 .hostOnly false ∧
     ∀ addr, (Malloc ctxNone [] 8 8 3 .mirror false).2.1 = .ok addr →
       (mapFind (Malloc ctxNone [] 8 8 3 .mirror false).1 addr).map Allocation.policy
         = some .hostOnly) :=
  ⟨rfl, c3_mirror_downgrades_to_hostonly rfl⟩

/-- C4 counterexample: gaps left by freed allocations can be reused
once the pseudo-heap wraps 2^64.  With no remote, after host mallocs of
sizes 2^64-4096 and 8192 (alignment 1) and freeing the allocation at 0,
the index holds only (2^64-4096, 8192); FindSpace(16) computes
align_up((2^64-4096) + 8192, 4096) in uint64, which wraps to 0x1000 —
an address inside the freed region [0, 2^64-4096) — and the next malloc
is placed there, so the unconditional no-reuse part of the claim fails
as stated. -/
theorem c4_counterexample :
    ((run ctxNone [] opsGap).map (fun p => (p.1, p.2.size)) = [(topAddr, 8192)]) ∧
    FindSpace ctxNone (run ctxNone [] opsGap) 16 false = (0x1000, []) ∧
    (Malloc ctxNone (run ctxNone [] opsGap) 16 1 3 .hostOnly false).2.1 = .ok 0x1000 ∧
    0x1000 + 16 ≤ topAddr :=
  ⟨by decide, by decide, rfl, by decide⟩

/-- C4 (amended): a FindSpace call with size > 0 and no live JIT-capable
remote returns 0 on an empty allocation index, and otherwise returns
align_up(a + s, 4096) (64-bit llvm::alignTo) for the entry (a, s) with
the greatest aligned_start; provided the pseudo-heap computation does
not wrap around 2^64 (a + s + 4095 < 2^64), the returned address lies
at or beyond the end of every existing entry, so gaps left by freed
allocations are never reused. -/
theorem c4_findspace_no_reuse {ctx : Ctx} {m : AllocationMap} {size : Nat}
    {zero : Bool} (hctx : liveJIT ctx = false) (hsz : 0 < size) :
    (m = [] → FindSpace ctx m size zero = (0, [])) ∧
    (∀ a al, WFmap m → m.getLast? = some (a, al) →
      (∀ q ∈ m, q.1 ≤ a) ∧
      FindSpace ctx m size zero = (alignTo4096 ((a + al.size) % U64), []) ∧
      (a + al.size + 4095 < U64 →
        ∀ q ∈ m, q.1 + q.2.size ≤ (FindSpace ctx m size zero).1)) := by
  have hne : ¬ size = 0 := by omega
  constructor
  · intro hm
    subst hm
    rw [FindSpace_noJIT hctx, if_neg hne]
    rfl
  · intro a al hwf hl
    refine ⟨?_, ?_, ?_⟩
    · intro q hq
      rcases mem_rel_getLast (WF_sorted hwf) hl hq with heq | hR
      · rw [heq]
      · exact le_of_lt hR
    · rw [FindSpace_noJIT hctx, if_neg hne, hostFindSpaceAddr_last hl]
    · intro hh q hq
      rw [FindSpace_noJIT hctx, if_neg hne]
      exact hostRaw_ge_ends hwf
        (by rw [lastHeadroomB_last hl]; exact decide_eq_true hh) q hq

theorem c4_findspace_no_reuse_witness :
    (liveJIT ctxNone = false ∧ (0 : Nat) < 112) ∧
    ((mC4 = [] → FindSpace ctxNone mC4 112 false = (0, [])) ∧
     (∀ a al, WFmap mC4 → mC4.getLast? = some (a, al) →
       (∀ q ∈ mC4, q.1 ≤ a) ∧
       FindSpace ctxNone mC4 112 false = (alignTo4096 ((a + al.size) % U64), []) ∧
       (a + al.size + 4095 < U64 →
         ∀ q ∈ mC4, q.1 + q.2.size ≤ (FindSpace ctxNone mC4 112 false).1))) :=
  ⟨⟨rfl, by omega⟩, c4_findspace_no_reuse rfl (by omega)⟩

/-- C5 counterexample: on a fresh map with no remote, after three
HostOnly mallocs of size 100 with alignment 16, the fourth returns
0x3000, not 0x1000: each allocation is already placed at
align_up(prev_end, 4096), so the claimed value 0x1000 is wrong. -/
theorem c5_counterexample :
    (Malloc ctxNone (run ctxNone [] ops3) 100 16 3 .hostOnly false).2.1 = .ok 0x3000 ∧
    (0x3000 : Nat) ≠ 0x1000 := ⟨rfl, by decide⟩

/-- C5 (amended): with no remote, the three HostOnly mallocs of size 100
with alignment 16 land at 0, 0x1000 and 0x2000 (size 112 each), and the
fourth returns align_up(prev_end, 4096) = align_up(0x2000 + 112, 4096)
= 0x3000. -/
theorem c5_fourth_malloc_at_0x3000 :
    ((run ctxNone [] ops3).map (fun p => (p.1, p.2.size))
      = [(0, 112), (0x1000, 112), (0x2000, 112)]) ∧
    (Malloc ctxNone (run ctxNone [] ops3) 100 16 3 .hostOnly false).2.1 = .ok 0x3000 ∧
    alignTo4096 ((0x2000 + 112) % U64) = 0x3000 :=
  ⟨by decide, rfl, by decide⟩

/-- C6 counterexample: a HostOnly Malloc performed while a live
JIT-capable remote exists delegates to FindSpace, which calls the remote
allocator with hardcoded permissions Readable|Writable = 3: a caller
passing permissions 5 sees 3 forwarded, so the permissions are not
passed verbatim on that path. -/
theorem c6_counterexample :
    ((Malloc ctxJIT [] 16 1 5 .hostOnly false).2.2.filterMap REvent.allocPerms? = [3]) ∧
    (3 : Nat) ≠ 5 := ⟨by decide, by decide⟩

/-- C6 (amended): Mirror and ProcessOnly mallocs forward the caller's
permissions (and zero flag and rounded size) verbatim to the remote
allocate / zero-allocate call; the HostOnly path instead passes
Readable|Writable = 3 with the zero flag forced to false. -/
theorem c6_permissions_forwarding {ctx : Ctx} {m : AllocationMap}
    {size alignment perms : Nat} {policy : AllocationPolicy} {zero : Bool}
    (hpol : policy = .mirror ∨ policy = .processOnly) :
    (∀ s p z, REvent.alloc s p z ∈ (Malloc ctx m size alignment perms policy zero).2.2 →
      s = allocationSize size alignment ∧ p = perms ∧ z = zero) ∧
    (∀ s p z, REvent.alloc s p z ∈ (Malloc ctx m size alignment perms .hostOnly zero).2.2 →
      p = 3 ∧ z = false) := by
  constructor
  · intro s p z hmem
    rw [Malloc_events] at hmem
    exact dispatch_alloc_verbatim hpol hmem
  · intro s p z hmem
    rw [Malloc_events, dispatch_hostOnly_events] at hmem
    have h := FindSpace_events hmem
    exact ⟨h.2.1, h.2.2⟩

theorem c6_permissions_forwarding_witness :
    (AllocationPolicy.mirror = AllocationPolicy.mirror ∨
      AllocationPolicy.mirror = AllocationPolicy.processOnly) ∧
    ((∀ s p z, REvent.alloc s p z ∈ (Malloc ctxJIT [] 16 1 5 .mirror true).2.2 →
      s = allocationSize 16 1 ∧ p = 5 ∧ z = true) ∧
     (∀ s p z, REvent.alloc s p z ∈ (Malloc ctxJIT [] 16 1 5 .hostOnly true).2.2 →
      p = 3 ∧ z = false)) :=
  ⟨Or.inl rfl, c6_permissions_forwarding (Or.inl rfl)⟩

/-- C7 counterexample: a well-formed HostOnly allocation of 4096 bytes
at 2^64 - 4096 (interval ending exactly at 2^64) with no remote: a
3-byte write fully inside its interval fails with OutOfRange, because
the 64-bit containment comparison in FindAllocation wraps
(aligned_start + size evaluates to 0), so the claim fails as stated. -/
theorem c7_counterexample :
    WFmap mTop ∧
    (∀ q ∈ mTop, q.2.policy = .hostOnly ∧ q.2.data_size = q.2.size ∧ q.2.leak = false) ∧
    topAddr + 4096 = U64 ∧
    (WriteMemory ctxNone mTop topAddr [1, 2, 3] 3).2.1 = .error .outOfRange := by
  refine ⟨⟨List.pairwise_singleton _ _, ?_⟩, ?_, by decide, rfl⟩
  · intro p hp
    unfold mTop at hp
    rw [List.mem_singleton] at hp
    subst hp
    decide
  · intro q hq
    unfold mTop at hq
    rw [List.mem_singleton] at hq
    subst hq
    exact ⟨rfl, rfl, rfl⟩

/-- C7 (amended): for every HostOnly allocation (including a Mirror
allocation downgraded at creation) in a well-formed map while no remote
process is present, whose interval ends strictly below 2^64, and every
nonempty range [addr, addr+n) contained in the allocation's interval:
WriteMemory of n bytes followed by ReadMemory of n bytes succeeds and
yields exactly the written bytes. -/
theorem c7_write_read_roundtrip {ctx : Ctx} {m : AllocationMap} {a : Nat}
    {al : Allocation} {addr n : Nat} {bytes buf : List Nat}
    (hctx : ctx.process? = none) (hwf : WFmap m) (hmem : (a, al) ∈ m)
    (hpol : al.policy = .hostOnly) (hds : al.data_size = al.size)
    (hlo : a ≤ addr) (hhi : addr + n ≤ a + al.size) (hn : 0 < n)
    (hlen : bytes.length = n) (hub : a + al.size < U64) :
    (WriteMemory ctx m addr bytes n).2.1 = .ok () ∧
    (ReadMemory ctx (WriteMemory ctx m addr bytes n).1 buf addr n).1 = .ok bytes := by
  have hfa := FindAllocation_mem hwf hmem hlo hhi hn hub
  have hds0 : ¬ al.data_size = 0 := by omega
  rw [WriteMemory_host hfa hpol hds0]
  constructor
  · rfl
  · dsimp only
    have hwf2 : WFmap (mapUpdate m a
        fun al2 => { al2 with data := memWrite al2.data (addr - a) bytes n }) :=
      WF_mapUpdate hwf (fun al2 => rfl)
    have hmem2 := mem_mapUpdate_self
      (f := fun al2 => { al2 with data := memWrite al2.data (addr - a) bytes n })
      (WF_sorted hwf) hmem
    have hfa2 := FindAllocation_mem hwf2 hmem2 hlo (by exact hhi) hn (by exact hub)
    rw [ReadMemory_host hfa2 (by exact hpol)
      (by exact (show ¬ al.size < addr - a by omega))
      (by exact hds0)
      (by exact (show ¬ al.data_size < (addr - a) + n by omega))]
    dsimp only
    rw [memRead_memWrite hlen]

theorem c7_write_read_roundtrip_witness :
    (ctxNone.process? = none ∧ WFmap mC4 ∧
      (0, Allocation.make 0 0 112 3 16 .hostOnly) ∈ mC4 ∧
      (Allocation.make 0 0 112 3 16 .hostOnly).policy = .hostOnly ∧
      (Allocation.make 0 0 112 3 16 .hostOnly).data_size
        = (Allocation.make 0 0 112 3 16 .hostOnly).size ∧
      (0 : Nat) ≤ 8 ∧ 8 + 3 ≤ 0 + (Allocation.make 0 0 112 3 16 .hostOnly).size ∧
      (0 : Nat) < 3 ∧ ([9, 8, 7] : List Nat).length = 3 ∧
      0 + (Allocation.make 0 0 112 3 16 .hostOnly).size < U64) ∧
    ((WriteMemory ctxNone mC4 8 [9, 8, 7] 3).2.1 = .ok () ∧
     (ReadMemory ctxNone (WriteMemory ctxNone mC4 8 [9, 8, 7] 3).1 [0, 0, 0] 8 3).1
       = .ok [9, 8, 7]) := by
  have hwfC : WFmap mC4 := by
    constructor
    · exact List.pairwise_singleton _ _
    · intro p hp
      unfold mC4 at hp
      rw [List.mem_singleton] at hp
      subst hp
      decide
  have hmemC : (0, Allocation.make 0 0 112 3 16 .hostOnly) ∈ mC4 := by
    unfold mC4
    exact List.mem_singleton.mpr rfl
  refine ⟨⟨rfl, hwfC, hmemC, rfl, rfl, by omega, by decide, by omega, by decide, by decide⟩, ?_⟩
  exact c7_write_read_roundtrip rfl hwfC hmemC rfl rfl (by omega) (by decide) (by omega)
    (by decide) (by decide)

/-- C8: Free looks the address up by exact aligned_start: if no
allocation has that key it fails with NotFound and leaves the map
unchanged; if the allocation exists with policy ProcessOnly and the
remote is present and alive, it performs the remote deallocation of the
record's raw_start exactly once, removes the entry, and an immediately
subsequent Free of the same address fails with NotFound leaving the map
unchanged. -/
theorem c8_free_exact_lookup {ctx : Ctx} {m : AllocationMap} {addr : Nat}
    (hs : SortedKeys m) :
    (mapFind m addr = none → Free ctx m addr = (m, .error .notFound, [])) ∧
    (∀ al w, mapFind m addr = some al → al.policy = .processOnly →
      ctx.process? = some w → w.isAlive = true →
      Free ctx m addr = (eraseKey m addr, .ok (), [.dealloc al.process_alloc]) ∧
      (Free ctx (eraseKey m addr) addr).2.1 = .error .notFound ∧
      (Free ctx (eraseKey m addr) addr).1 = eraseKey m addr) := by
  constructor
  · intro h
    unfold Free
    rw [h]
  · intro al w hfind hpol hproc halive
    have herase := mapFind_eraseKey_self hs addr
    refine ⟨?_, ?_, ?_⟩
    · unfold Free
      rw [hfind]
      dsimp only
      unfold freeDeallocEvents
      rw [hpol]
      dsimp only
      rw [hproc]
    · unfold Free
      rw [herase]
    · unfold Free
      rw [herase]

theorem c8_free_exact_lookup_witness :
    SortedKeys mC8 ∧
    ((mapFind mC8 0x7000 = none → Free ctxJIT mC8 0x7000 = (mC8, .error .notFound, [])) ∧
     (∀ al w, mapFind mC8 0x7000 = some al → al.policy = .processOnly →
       ctxJIT.process? = some w → w.isAlive = true →
       Free ctxJIT mC8 0x7000
         = (eraseKey mC8 0x7000, .ok (), [.dealloc al.process_alloc]) ∧
       (Free ctxJIT (eraseKey mC8 0x7000) 0x7000).2.1 = .error .notFound ∧
       (Free ctxJIT (eraseKey mC8 0x7000) 0x7000).1 = eraseKey mC8 0x7000)) :=
  ⟨List.pairwise_singleton _ _, c8_free_exact_lookup (List.pairwise_singleton _ _)⟩

theorem destructorEventsSpec_mem {ctx : Ctx} {m : AllocationMap}
    {q : Nat × Allocation} (hq : q ∈ m) (hleak : q.2.leak = false)
    {e : REvent} (he : e ∈ freeDeallocEvents ctx q.2) :
    e ∈ destructorEventsSpec ctx m := by
  induction m with
  | nil => cases hq
  | cons r t ih =>
    unfold destructorEventsSpec
    rcases List.mem_cons.mp hq with rfl | hq2
    · rw [if_neg (by simp [hleak])]
      exact List.mem_append_left _ he
    · exact List.mem_append_right _ (ih hq2)

theorem freeDealloc_nonHost {ctx : Ctx} {w : Process} {al : Allocation}
    (hctx : ctx.process? = some w) (hpol : al.policy ≠ .hostOnly) :
    freeDeallocEvents ctx al = [.dealloc al.process_alloc] := by
  unfold freeDeallocEvents
  cases hp : al.policy with
  | hostOnly => exact absurd hp hpol
  | mirror =>
    dsimp only
    rw [hctx]
  | processOnly =>
    dsimp only
    rw [hctx]

theorem freeDealloc_host_jit {ctx : Ctx} {w : Process} {al : Allocation}
    (hctx : ctx.process? = some w) (hj : (w.canJIT && w.isAlive) = true)
    (hpol : al.policy = .hostOnly) :
    freeDeallocEvents ctx al = [.dealloc al.process_alloc] := by
  unfold freeDeallocEvents
  rw [hpol]
  dsimp only
  rw [hctx]
  dsimp only
  rw [if_pos hj]

/-- C9 counterexample: with a remote that is alive but cannot JIT, the
destructor frees the single non-leaked HostOnly allocation without any
remote deallocation (the HostOnly branch of Free requires CanJIT as
well), so the claim that a non-leaked entry is deallocated on the remote
while the remote process is alive fails as stated. -/
theorem c9_counterexample :
    pNoJIT.isAlive = true ∧
    (∀ q ∈ mC9, q.2.leak = false ∧ q.2.policy = .hostOnly ∧ q.2.process_alloc = 0) ∧
    (destructor ctxNoJIT mC9).1 = [] ∧
    REvent.dealloc 0 ∉ (destructor ctxNoJIT mC9).2 ∧
    (destructor ctxNoJIT mC9).2 = [] := by
  refine ⟨rfl, ?_, rfl, by decide, rfl⟩
  intro q hq
  unfold mC9 at hq
  rw [List.mem_singleton] at hq
  subst hq
  exact ⟨rfl, rfl, rfl⟩

/-- C9 (amended): when the destructor runs with the remote process still
present, the index is emptied and the remote deallocations are exactly
those of Free applied to each non-leaked entry in order: leaked entries
are dropped without any remote call; non-leaked Mirror and ProcessOnly
entries are always deallocated on the remote; non-leaked HostOnly
entries are deallocated only when the remote additionally is alive and
can JIT.  (With no remote the loop does not run at all.) -/
theorem c9_destructor_behavior {ctx : Ctx} {m : AllocationMap} {w : Process}
    (hctx : ctx.process? = some w) :
    (destructor ctx m).1 = [] ∧
    (destructor ctx m).2 = destructorEventsSpec ctx m ∧
    (∀ q ∈ m, q.2.leak = false → q.2.policy ≠ .hostOnly →
      REvent.dealloc q.2.process_alloc ∈ (destructor ctx m).2) ∧
    ((w.canJIT && w.isAlive) = true →
      ∀ q ∈ m, q.2.leak = false →
        REvent.dealloc q.2.process_alloc ∈ (destructor ctx m).2) := by
  have hd : destructor ctx m = ([], destructorEventsSpec ctx m) := by
    unfold destructor
    rw [hctx]
    exact destructorLoopGo_spec ctx m
  refine ⟨by rw [hd], by rw [hd], ?_, ?_⟩
  · intro q hq hleak hpol
    rw [hd]
    exact destructorEventsSpec_mem hq hleak
      (by rw [freeDealloc_nonHost hctx hpol]; exact List.mem_singleton.mpr rfl)
  · intro hj q hq hleak
    rw [hd]
    by_cases hpol : q.2.policy = .hostOnly
    · exact destructorEventsSpec_mem hq hleak
        (by rw [freeDealloc_host_jit hctx hj hpol]; exact List.mem_singleton.mpr rfl)
    · exact destructorEventsSpec_mem hq hleak
        (by rw [freeDealloc_nonHost hctx hpol]; exact List.mem_singleton.mpr rfl)

theorem c9_destructor_behavior_witness :
    ctxJIT.process? = some pJIT ∧
    ((destructor ctxJIT mC9).1 = [] ∧
     (destructor ctxJIT mC9).2 = destructorEventsSpec ctxJIT mC9 ∧
     (∀ q ∈ mC9, q.2.leak = false → q.2.policy ≠ .hostOnly →
       REvent.dealloc q.2.process_alloc ∈ (destructor ctxJIT mC9).2) ∧
     ((pJIT.canJIT && pJIT.isAlive) = true →
       ∀ q ∈ mC9, q.2.leak = false →
         REvent.dealloc q.2.process_alloc ∈ (destructor ctxJIT mC9).2)) :=
  ⟨rfl, c9_destructor_behavior rfl⟩

/-- C10: for every map state and every size, FindAllocation at the
sentinel LLDB_INVALID_ADDRESS finds nothing and IntersectsAllocation at
the sentinel is false; consequently WriteMemory at the sentinel leaves
the allocation index unchanged and both WriteMemory and ReadMemory
behave exactly as on an empty map, i.e. they always take the
no-allocation fallback path. -/
theorem c10_invalid_sentinel (m : AllocationMap) (size : Nat) :
    FindAllocation m LLDB_INVALID_ADDRESS size = none ∧
    IntersectsAllocation m LLDB_INVALID_ADDRESS size = false ∧
    (∀ ctx bytes n, (WriteMemory ctx m LLDB_INVALID_ADDRESS bytes n).1 = m ∧
      (WriteMemory ctx m LLDB_INVALID_ADDRESS bytes n).2
        = (WriteMemory ctx [] LLDB_INVALID_ADDRESS bytes n).2) ∧
    (∀ ctx buf n, ReadMemory ctx m buf LLDB_INVALID_ADDRESS n
      = ReadMemory ctx [] buf LLDB_INVALID_ADDRESS n) := by
  have hfa : ∀ (m2 : AllocationMap) n, FindAllocation m2 LLDB_INVALID_ADDRESS n = none := by
    intro m2 n
    unfold FindAllocation
    rw [if_pos rfl]
  refine ⟨hfa m size, ?_, ?_, ?_⟩
  · unfold IntersectsAllocation
    rw [if_pos rfl]
  · intro ctx bytes n
    unfold WriteMemory
    rw [hfa m n, hfa [] n]
    constructor
    · cases hp : ctx.process? <;> rfl
    · cases hp : ctx.process? <;> rfl
  · intro ctx buf n
    unfold ReadMemory
    rw [hfa m n, hfa [] n]

end IRMemoryMap
